import Mathlib

/-!
Verification of the matching / scoring / deduplication engine of
`job_tool.py` (career-bot).  Text is modelled as `List Char`; Python
`str.lower` is modelled by ASCII case folding (`Char.toLower`); Python
floats (the fuzzy similarity ratio and its threshold) are modelled by `Rat`.
All definitions are translated directly from the source file.
-/

set_option maxHeartbeats 1000000

abbrev Str := List Char

/-- Model of Python `str.lower()` (ASCII case folding; the CJK text this
tool handles is unaffected by case folding). -/
def pyLower (s : Str) : Str := s.map Char.toLower

/-- Python `str.strip()` default whitespace characters (ASCII part). -/
def pySpaceChar (c : Char) : Bool :=
  c.toNat == 32 || c.toNat == 9 || c.toNat == 10 || c.toNat == 13 ||
  c.toNat == 11 || c.toNat == 12

/-- Model of Python `str.strip()`. -/
def pyStrip (s : Str) : Str :=
  ((s.dropWhile pySpaceChar).reverse.dropWhile pySpaceChar).reverse

/-- Does `needle` occur at the start of `hay`?  (Helper for the Python
`in` substring test.) -/
def strStarts : Str → Str → Bool
  | [], _ => true
  | _ :: _, [] => false
  | a :: as, b :: bs => a == b && strStarts as bs

/-- Model of the Python substring test `needle in hay`. -/
def isSub (needle : Str) : Str → Bool
  | [] => needle.isEmpty
  | b :: bs => strStarts needle (b :: bs) || isSub needle bs

theorem strStarts_iff (n : Str) : ∀ h : Str, strStarts n h = true ↔ ∃ t, n ++ t = h := by
  induction n with
  | nil => intro h; exact iff_of_true rfl ⟨h, rfl⟩
  | cons a as ih =>
    intro h
    cases h with
    | nil => simp [strStarts]
    | cons b bs =>
      simp only [strStarts, Bool.and_eq_true, beq_iff_eq, ih bs]
      constructor
      · rintro ⟨rfl, t, rfl⟩; exact ⟨t, rfl⟩
      · rintro ⟨t, ht⟩
        injection ht with h1 h2
        exact ⟨h1, t, h2⟩

theorem isSub_iff (n : Str) : ∀ h : Str, isSub n h = true ↔ n <:+: h := by
  intro h
  induction h with
  | nil =>
    simp only [isSub, List.isEmpty_iff]
    constructor
    · rintro rfl; exact ⟨[], [], rfl⟩
    · rintro ⟨s, t, hst⟩
      exact (List.append_eq_nil.mp (List.append_eq_nil.mp hst).1).2
  | cons b bs ih =>
    simp only [isSub, Bool.or_eq_true, strStarts_iff, ih]
    constructor
    · rintro (⟨t, ht⟩ | ⟨s, t, hst⟩)
      · exact ⟨[], t, by simpa using ht⟩
      · exact ⟨b :: s, t, by simp [hst]⟩
    · rintro ⟨s, t, hst⟩
      cases s with
      | nil => exact Or.inl ⟨t, by simpa using hst⟩
      | cons x xs =>
        injection hst with h1 h2
        exact Or.inr ⟨xs, t, h2⟩

theorem isSub_nil_left (h : Str) : isSub [] h = true := by
  cases h <;> simp [isSub, strStarts]

/-- Characters kept by `_normalize_text_for_match`: ASCII digits, ASCII
lowercase letters, and CJK Unified Ideographs (U+4E00 – U+9FFF). -/
def keepChar (c : Char) : Bool :=
  (48 ≤ c.toNat && c.toNat ≤ 57) || (97 ≤ c.toNat && c.toNat ≤ 122) ||
  (0x4e00 ≤ c.toNat && c.toNat ≤ 0x9fff)

/-- Model of `_normalize_text_for_match`: lowercase, then delete every character that
is not an ASCII alphanumeric or a CJK ideograph. -/
def normalize_text_for_match (s : Str) : Str :=
  (pyLower s).filter keepChar

/-- Character class of the token regex of `keyword_in_text` (ASCII lowercase
letters, digits, plus, hash, dot, underscore, slash, dash). -/
def tokenChar (c : Char) : Bool :=
  (97 ≤ c.toNat && c.toNat ≤ 122) || (48 ≤ c.toNat && c.toNat ≤ 57) ||
  c == '+' || c == '#' || c == '.' || c == '_' || c == '/' || c == '-'

/-- Character class of `re.findall(r"[a-z0-9]+", ...)`. -/
def wordChar (c : Char) : Bool :=
  (97 ≤ c.toNat && c.toNat ≤ 122) || (48 ≤ c.toNat && c.toNat ≤ 57)

/-- Model of `re.findall` of a character-class-plus pattern: the maximal
runs of characters satisfying `p`. -/
def splitRuns (p : Char → Bool) : Str → List Str
  | [] => []
  | c :: cs =>
    if p c then (c :: cs.takeWhile p) :: splitRuns p (cs.dropWhile p)
    else splitRuns p cs
termination_by l => l.length
decreasing_by
  · exact Nat.lt_succ_of_le (List.dropWhile_suffix p).sublist.length_le
  · exact Nat.lt_succ_self _


/-- Number of occurrences of `c` in `b`. -/
def countChar (c : Char) (b : Str) : Nat := (b.filter (fun x => x == c)).length

/-- difflib autojunk: when `b` has at least 200 elements, elements occurring
more than `b.length / 100 + 1` times are "popular" and treated as junk
(removed from `b2j`, handled only by the junk extension loops).  The
`isjunk` parameter itself is `None` in `keyword_in_text`. -/
def bJunk (b : Str) (c : Char) : Bool :=
  decide (200 ≤ b.length) && decide (b.length / 100 + 1 < countChar c b)

structure FlmState where
  besti : Nat
  bestj : Nat
  bestsize : Nat
  row : List Nat

/-- Dynamic-programming core of `SequenceMatcher.find_longest_match` on full
slices: longest matching block `(i, j, size)` over non-junk characters,
ties broken by smallest `i`, then smallest `j` (the scan order of difflib). -/
def flmCore (junk : Char → Bool) (a b : Str) : Nat × Nat × Nat :=
  let step := fun (st : FlmState) (ia : Nat × Char) =>
    let row2 := ((0 :: st.row).zip b).map
      (fun pc => if pc.2 == ia.2 && !junk pc.2 then pc.1 + 1 else 0)
    let best := row2.enum.foldl
      (fun (acc : Nat × Nat × Nat) jk =>
        if acc.2.2 < jk.2 then (ia.1 + 1 - jk.2, jk.1 + 1 - jk.2, jk.2) else acc)
      (st.besti, st.bestj, st.bestsize)
    ⟨best.1, best.2.1, best.2.2, row2⟩
  let final := a.enum.foldl step ⟨0, 0, 0, List.replicate b.length 0⟩
  (final.besti, final.bestj, final.bestsize)

/-- Full `find_longest_match` including the four extension loops that follow the
DP search in difflib (they matter only when junk characters exist): extend
left then right over equal non-junk characters, then left then right over
equal junk characters. -/
def findLongestMatch (junk : Char → Bool) (a b : Str) : Nat × Nat × Nat :=
  let c := flmCore junk a b
  let i := c.1
  let j := c.2.1
  let k := c.2.2
  let left := ((a.take i).reverse).zip ((b.take j).reverse)
  let right := (a.drop (i + k)).zip (b.drop (j + k))
  let eqNonjunk := fun (pc : Char × Char) => pc.1 == pc.2 && !junk pc.2
  let eqJunk := fun (pc : Char × Char) => pc.1 == pc.2 && junk pc.2
  let e1 := (left.takeWhile eqNonjunk).length
  let e2 := (right.takeWhile eqNonjunk).length
  let e3 := ((left.drop e1).takeWhile eqJunk).length
  let e4 := ((right.drop e2).takeWhile eqJunk).length
  (i - (e1 + e3), j - (e1 + e3), k + e1 + e2 + e3 + e4)

/-- Sum of the sizes of all matching blocks (`get_matching_blocks`): take
the longest match, recurse on what is left of it and on what is right of
it.  `fuel` bounds the recursion; `a.length + b.length` always suffices
because every recursive call strictly decreases the combined length. -/
def matchingTotalF (junk : Char → Bool) : Nat → Str → Str → Nat
  | 0, _, _ => 0
  | fuel + 1, a, b =>
    let m := findLongestMatch junk a b
    let i := m.1
    let j := m.2.1
    let k := m.2.2
    if k == 0 then 0
    else
      k + matchingTotalF junk fuel (a.take i) (b.take j)
        + matchingTotalF junk fuel (a.drop (i + k)) (b.drop (j + k))

def matchingTotal (junk : Char → Bool) (a b : Str) : Nat :=
  matchingTotalF junk (a.length + b.length) a b

/-- Model of `SequenceMatcher(None, a, b).ratio()`: `2·M / (|a| + |b|)`, and `1.0`
when both sequences are empty; modelled over `Rat` instead of IEEE floats. -/
def similarityScore (a b : Str) : Rat :=
  if a.length + b.length == 0 then 1
  else ((2 * matchingTotal (bJunk b) a b : Nat) : Rat) / ((a.length + b.length : Nat) : Rat)

/-- Model of `keyword_in_text`: the four-tier short-circuiting cascade — exact
substring, normalized substring, token-level fuzzy, n-gram fuzzy. -/
def keyword_in_text (text keyword : Str) (fuzzy : Bool) (threshold : Rat) : Bool :=
  if keyword.isEmpty then false
  else
    let text_l := pyLower text
    let kw_l := pyLower keyword
    if isSub kw_l text_l then true
    else
      let text_n := normalize_text_for_match text
      let kw_n := normalize_text_for_match keyword
      if !kw_n.isEmpty && isSub kw_n text_n then true
      else if !fuzzy || kw_n.isEmpty then false
      else
        let text_tokens := splitRuns tokenChar text_l
        if text_tokens.any (fun token =>
            let token_n := normalize_text_for_match token
            !token_n.isEmpty && decide (threshold ≤ similarityScore token_n kw_n)) then
          true
        else
          let kw_words := splitRuns wordChar kw_l
          let words := splitRuns wordChar text_l
          if 2 ≤ kw_words.length && kw_words.length ≤ words.length then
            (List.range (words.length - kw_words.length + 1)).any (fun i =>
              decide (threshold ≤
                similarityScore ((words.drop i).take kw_words.length).flatten kw_words.flatten))
          else false

/-- A normalized job record (output of `normalize_job`, input of the
engine).  `source_raw` is opaque and never matched against, so it is not
modelled. -/
structure Job where
  title : Str
  company : Str
  city : Str
  salary : Int
  url : Str
  description : Str
  industry : Str
  tags : List Str
  remote : Bool

/-- The `MatchRule` configuration dataclass. -/
structure MatchRule where
  include_keywords : List Str
  require_include_keyword_match : Bool
  required_keywords_all : List Str
  required_keyword_groups : List (List Str)
  min_required_group_matches : Int
  fuzzy_match_enabled : Bool
  fuzzy_match_threshold : Rat
  exclude_keywords : List Str
  preferred_cities : List Str
  allowed_cities : List Str
  include_companies : List Str
  exclude_companies : List Str
  include_industry_keywords : List Str
  require_industry_match : Bool
  minimum_salary : Int
  require_remote : Bool
  minimum_score : Int
  top_n : Int

/-- The lowercase full text built at the top of `score_job`:
`" ".join([title, company, city, industry, description, " ".join(tags)])`,
each component lowercased. -/
def fullTextOf (j : Job) : Str :=
  List.intercalate " ".data
    [pyLower j.title, pyLower j.company, pyLower j.city, pyLower j.industry,
     pyLower j.description, List.intercalate " ".data (j.tags.map pyLower)]

/-- One keyword test of `score_job`: `keyword_in_text(fulltext, kw,
rules.fuzzy_match_enabled, rules.fuzzy_match_threshold)`. -/
def kwMatch (j : Job) (r : MatchRule) (kw : Str) : Bool :=
  keyword_in_text (fullTextOf j) kw r.fuzzy_match_enabled r.fuzzy_match_threshold

/-- The effective required keyword groups: `required_keyword_groups`, or —
when that list is empty — each keyword of `required_keywords_all` as its own
singleton group. -/
def effGroups (r : MatchRule) : List (List Str) :=
  if r.required_keyword_groups.isEmpty then
    r.required_keywords_all.map (fun kw => [kw])
  else r.required_keyword_groups

/-- Value of `group_hits` in `score_job`: the number of groups that are non-empty
(empty groups are skipped by the loop) and contain at least one matching
term. -/
def groupHitsOf (j : Job) (r : MatchRule) : Nat :=
  ((effGroups r).filter (fun g => !g.isEmpty && g.any (kwMatch j r))).length

/-- Value of `required_hits = rules.min_required_group_matches or len(required_groups)`:
Python `or` takes the left operand unless it is falsy (the int 0). -/
def reqHitsOf (r : MatchRule) : Int :=
  if r.min_required_group_matches ≠ 0 then r.min_required_group_matches
  else ((effGroups r).length : Int)

/-- Condition of the required-group veto: `if required_groups:` and
`group_hits < required_hits`. -/
def grpVetoCond (j : Job) (r : MatchRule) : Bool :=
  !(effGroups r).isEmpty && decide ((groupHitsOf j r : Int) < reqHitsOf r)

/-- Value of `city_allowed` in `score_job`: some allowed city, stripped, is non-empty
and a literal substring of the stripped job city. -/
def cityAllowedOf (j : Job) (r : MatchRule) : Bool :=
  r.allowed_cities.any (fun allowed =>
    !(pyStrip allowed).isEmpty && isSub (pyStrip allowed) (pyStrip j.city))

/-- Condition of the allowed-city veto: the rule restricts cities, the job
has a city, and no allowed city matches. -/
def cityVetoCond (j : Job) (r : MatchRule) : Bool :=
  !r.allowed_cities.isEmpty && !j.city.isEmpty && !cityAllowedOf j r

/-- Value of `industry_hit`: strict hit of an include-industry keyword on the
industry field only (literal case-insensitive substring). -/
def industryHitOf (j : Job) (r : MatchRule) : Bool :=
  r.include_industry_keywords.any (fun kw => isSub (pyLower kw) (pyLower j.industry))

/-- Value of `industry_loose_hit`: keyword in the industry field or anywhere in the
full text. -/
def industryLooseOf (j : Job) (r : MatchRule) : Bool :=
  r.include_industry_keywords.any (fun kw =>
    isSub (pyLower kw) (pyLower j.industry) || isSub (pyLower kw) (fullTextOf j))

/-- Condition of the strict-industry veto. -/
def indVetoCond (j : Job) (r : MatchRule) : Bool :=
  !r.include_industry_keywords.isEmpty && r.require_industry_match && !industryHitOf j r

/-- The include keywords that match the full text, in list order. -/
def matchedIncludesOf (j : Job) (r : MatchRule) : List Str :=
  r.include_keywords.filter (kwMatch j r)

/-- Condition of the include-keyword veto: required, but zero hits. -/
def incVetoCond (j : Job) (r : MatchRule) : Bool :=
  r.require_include_keyword_match && (matchedIncludesOf j r).isEmpty

/-- The preferred companies that match, in list order. -/
def matchedCompaniesOf (j : Job) (r : MatchRule) : List Str :=
  r.include_companies.filter (fun c => isSub (pyLower c) (pyLower j.company))

/-- Industry bonus guard: inside the `include_industry_keywords` block, a
loose hit adds +8. -/
def indLooseBonus (j : Job) (r : MatchRule) : Bool :=
  !r.include_industry_keywords.isEmpty && industryLooseOf j r

def indBonusScore (j : Job) (r : MatchRule) : Int :=
  if indLooseBonus j r then 8 else 0

def indBonusReasons (j : Job) (r : MatchRule) : List Str :=
  if indLooseBonus j r then
    ["產業符合: ".data ++ (if j.industry.isEmpty then "軟體相關關鍵字".data else j.industry)]
  else []

/-- The `city_preferred` guard of the +6 location bonus. -/
def cityPrefCond (j : Job) (r : MatchRule) : Bool :=
  !r.preferred_cities.isEmpty && !j.city.isEmpty &&
    r.preferred_cities.any (fun p => !(pyStrip p).isEmpty && isSub (pyStrip p) (pyStrip j.city))

def cityBonusScore (j : Job) (r : MatchRule) : Int :=
  if cityPrefCond j r then 6 else 0

def cityBonusReasons (j : Job) (r : MatchRule) : List Str :=
  if cityPrefCond j r then ["地點符合: ".data ++ j.city] else []

/-- Salary step: unknown (≤ 0) scores 0, at or above the minimum +6,
otherwise −4. -/
def salaryScore (j : Job) (r : MatchRule) : Int :=
  if j.salary ≤ 0 then 0
  else if r.minimum_salary ≤ j.salary then 6 else -4

def salaryReasons (j : Job) (r : MatchRule) : List Str :=
  if j.salary ≤ 0 then ["薪資未知".data]
  else if r.minimum_salary ≤ j.salary then
    ["薪資符合: >= ".data ++ (toString r.minimum_salary).data]
  else ["薪資偏低: ".data ++ (toString j.salary).data]

/-- Remote step: only when required, +5 if remote else −8. -/
def remoteScore (j : Job) (r : MatchRule) : Int :=
  if r.require_remote then (if j.remote then 5 else -8) else 0

def remoteReasons (j : Job) (r : MatchRule) : List Str :=
  if r.require_remote then
    (if j.remote then ["支援遠端".data] else ["不支援遠端".data])
  else []

def exclKwReason (kw : Str) : Str := "排除關鍵字: ".data ++ kw

def grpVetoReason (j : Job) (r : MatchRule) : Str :=
  "必要群組命中不足: ".data ++ (toString (groupHitsOf j r)).data ++ "/".data
    ++ (toString (reqHitsOf r)).data

def cityVetoReason (j : Job) : Str := "不在允許城市: ".data ++ j.city

def exclCompanyReason (c : Str) : Str := "排除公司: ".data ++ c

def indVetoReasonStr : Str := "非目標產業（軟體優先）".data

def incVetoReasonStr : Str := "未命中任何 include_keywords".data

/-- The part of `score_job` after the four early veto checks: strict
industry veto, industry bonus, include-keyword bonuses and veto, preferred
companies, preferred cities, salary, remote.  (The source accumulates the
include-keyword bonuses before testing `require_include_keyword_match`, but
that veto discards the accumulated score and reasons, so testing it first
is equivalent.) -/
def scoreTail (j : Job) (r : MatchRule) : Int × List Str :=
  if indVetoCond j r then (-9999, [indVetoReasonStr])
  else if incVetoCond j r then (-9999, [incVetoReasonStr])
  else
    (indBonusScore j r + 10 * ((matchedIncludesOf j r).length : Int)
       + 8 * ((matchedCompaniesOf j r).length : Int)
       + cityBonusScore j r + salaryScore j r + remoteScore j r,
     indBonusReasons j r
       ++ (matchedIncludesOf j r).map (fun kw => "關鍵字符合: ".data ++ kw)
       ++ (matchedCompaniesOf j r).map (fun c => "偏好公司: ".data ++ c)
       ++ cityBonusReasons j r ++ salaryReasons j r ++ remoteReasons j r)

/-- Model of `score_job(job, rules) -> (score, reasons)`. -/
def score_job (j : Job) (r : MatchRule) : Int × List Str :=
  match r.exclude_keywords.find? (kwMatch j r) with
  | some kw => (-9999, [exclKwReason kw])
  | none =>
    if grpVetoCond j r then (-9999, [grpVetoReason j r])
    else if cityVetoCond j r then (-9999, [cityVetoReason j])
    else
      match r.exclude_companies.find? (fun c => isSub (pyLower c) (pyLower j.company)) with
      | some c => (-9999, [exclCompanyReason c])
      | none => scoreTail j r

/-- Disjunction of the six hard-veto conditions of `score_job`. -/
def hardVeto (j : Job) (r : MatchRule) : Bool :=
  r.exclude_keywords.any (kwMatch j r)
  || grpVetoCond j r
  || cityVetoCond j r
  || r.exclude_companies.any (fun c => isSub (pyLower c) (pyLower j.company))
  || indVetoCond j r
  || incVetoCond j r

/-- Model of `canonical_job_key`: a non-empty (stripped) url, without its query
string and trailing slashes, is the key; otherwise the lowercase stripped
`title::company`. -/
def canonical_job_key (j : Job) : Str :=
  let url := pyStrip j.url
  if !url.isEmpty then
    ((url.takeWhile (fun c => c != '?')).reverse.dropWhile (fun c => c == '/')).reverse
  else
    pyLower (pyStrip j.title) ++ "::".data ++ pyLower (pyStrip j.company)

/-- In-run deduplication loop of `main`: `seen` is the set of keys already
emitted. -/
def dedupeGo (seen : List Str) : List Job → List Job
  | [] => []
  | j :: js =>
    if seen.contains (canonical_job_key j) then dedupeGo seen js
    else j :: dedupeGo (canonical_job_key j :: seen) js

/-- In-run deduplication (the source comment reads: remove duplicates in the same run). -/
def dedupeJobs (jobs : List Job) : List Job := dedupeGo [] jobs

/-- A job annotated by `main` with its score and reasons. -/
structure Scored where
  job : Job
  score : Int
  reasons : List Str

/-- The matched-accumulation loop of `main`: score every job and drop those
with `score < rules.minimum_score`. -/
def evalJobs (r : MatchRule) (jobs : List Job) : List Scored :=
  (jobs.map (fun j => Scored.mk j (score_job j r).1 (score_job j r).2)).filter
    (fun x => decide (r.minimum_score ≤ x.score))

/-- Stable insertion of a scored job into a descending-sorted list: the new
element goes after every earlier element with an equal or higher score. -/
def insertDesc (x : Scored) : List Scored → List Scored
  | [] => [x]
  | y :: ys => if y.score ≤ x.score then x :: y :: ys else y :: insertDesc x ys

/-- Model of `matched.sort(key=lambda x: x["score"], reverse=True)`:
a stable descending sort (Python's sort is stable, and `reverse=True`
does not reverse equal-score runs). -/
def sortDesc : List Scored → List Scored
  | [] => []
  | x :: xs => insertDesc x (sortDesc xs)

/-- Python slicing `l[:n]`: for a negative `n` it keeps everything but the
last `|n|` elements. -/
def pySliceTo (n : Int) (l : List Scored) : List Scored :=
  if 0 ≤ n then l.take n.toNat else l.take (l.length - (-n).toNat)

/-- The ranking segment of `main`: threshold filter, stable descending
sort, truncation to `top_n`. -/
def rankJobs (r : MatchRule) (l : List Scored) : List Scored :=
  pySliceTo r.top_n (sortDesc (l.filter (fun x => decide (r.minimum_score ≤ x.score))))

/-- The full matched pipeline applied to (already deduplicated) jobs. -/
def matchedOf (r : MatchRule) (jobs : List Job) : List Scored :=
  pySliceTo r.top_n (sortDesc (evalJobs r jobs))

/-- The SeenStore lifecycle of one `main` run, as the list of keys whose set
is persisted at run end: `historical_seen_keys` is the on-disk set unless
`--ignore-seen-dedup` is passed (then it is the empty set and no filtering
happens), and `new_seen_keys` is that set plus the keys of the matched
(post-threshold, post-truncation) jobs.  `minimize_job_output` preserves
url, title and company, so the key of a minimized job equals the key of the
original job. -/
def runPersistedKeys (disk : List Str) (ignore : Bool) (r : MatchRule)
    (jobs : List Job) : List Str :=
  let deduped := dedupeJobs jobs
  let hist : List Str := if ignore then [] else disk
  let kept := if ignore then deduped
    else deduped.filter (fun j => !hist.contains (canonical_job_key j))
  let matched := matchedOf r kept
  hist ++ matched.map (fun x => canonical_job_key x.job)

theorem mem_insertDesc (x y : Scored) : ∀ l : List Scored,
    y ∈ insertDesc x l ↔ y = x ∨ y ∈ l := by
  intro l
  induction l with
  | nil => simp [insertDesc]
  | cons z zs ih =>
    simp only [insertDesc]
    split
    · simp
    · simp only [List.mem_cons, ih]
      tauto

theorem pairwise_insertDesc (x : Scored) : ∀ l : List Scored,
    l.Pairwise (fun a b => b.score ≤ a.score) →
    (insertDesc x l).Pairwise (fun a b => b.score ≤ a.score) := by
  intro l
  induction l with
  | nil => intro _; simp [insertDesc]
  | cons y ys ih =>
    intro hl
    rcases List.pairwise_cons.mp hl with ⟨hy, hys⟩
    simp only [insertDesc]
    split
    · rename_i hle
      refine List.pairwise_cons.mpr ⟨?_, hl⟩
      intro z hz
      rcases List.mem_cons.mp hz with rfl | hz'
      · exact hle
      · exact le_trans (hy z hz') hle
    · rename_i hgt
      refine List.pairwise_cons.mpr ⟨?_, ih hys⟩
      intro z hz
      rcases (mem_insertDesc x z ys).mp hz with rfl | hz'
      · exact le_of_lt (lt_of_not_le hgt)
      · exact hy z hz'

theorem perm_insertDesc (x : Scored) : ∀ l : List Scored,
    (insertDesc x l).Perm (x :: l) := by
  intro l
  induction l with
  | nil => simp [insertDesc]
  | cons y ys ih =>
    simp only [insertDesc]
    split
    · exact List.Perm.refl _
    · exact (ih.cons y).trans (List.Perm.swap x y ys)

theorem pairwise_sortDesc : ∀ l : List Scored,
    (sortDesc l).Pairwise (fun a b => b.score ≤ a.score) := by
  intro l
  induction l with
  | nil => simp [sortDesc]
  | cons x xs ih => exact pairwise_insertDesc x (sortDesc xs) ih

theorem perm_sortDesc : ∀ l : List Scored, (sortDesc l).Perm l := by
  intro l
  induction l with
  | nil => exact List.Perm.refl _
  | cons x xs ih => exact (perm_insertDesc x (sortDesc xs)).trans (ih.cons x)

theorem filter_insertDesc (s : Int) (x : Scored) : ∀ l : List Scored,
    (insertDesc x l).filter (fun z => decide (z.score = s)) =
      if x.score = s then x :: l.filter (fun z => decide (z.score = s))
      else l.filter (fun z => decide (z.score = s)) := by
  intro l
  induction l with
  | nil =>
    by_cases hx : x.score = s <;> simp [insertDesc, List.filter, hx]
  | cons y ys ih =>
    simp only [insertDesc]
    split
    · rename_i hle
      by_cases hx : x.score = s <;> simp [List.filter_cons, hx]
    · rename_i hgt
      by_cases hx : x.score = s
      · have hy : ¬ y.score = s := by
          intro he
          exact hgt (by rw [he, ← hx])
        simp [List.filter_cons, hy, ih, hx]
      · by_cases hy : y.score = s <;> simp [List.filter_cons, ih, if_neg hx, hy]

theorem filter_sortDesc (s : Int) : ∀ l : List Scored,
    (sortDesc l).filter (fun z => decide (z.score = s)) =
      l.filter (fun z => decide (z.score = s)) := by
  intro l
  induction l with
  | nil => rfl
  | cons x xs ih =>
    simp only [sortDesc, filter_insertDesc, ih]
    by_cases hx : x.score = s <;> simp [List.filter_cons, hx]

theorem filter_take (p : Scored → Bool) : ∀ (l : List Scored) (k : Nat),
    ∃ m, (l.take k).filter p = (l.filter p).take m := by
  intro l
  induction l with
  | nil => intro k; exact ⟨0, by simp⟩
  | cons x xs ih =>
    intro k
    cases k with
    | zero => exact ⟨0, by simp⟩
    | succ k =>
      obtain ⟨m, hm⟩ := ih k
      by_cases px : p x
      · exact ⟨m + 1, by simp [List.filter_cons, px, hm]⟩
      · exact ⟨m, by simp [List.filter_cons, px, hm]⟩

theorem pySliceTo_eq_take (n : Int) (l : List Scored) :
    ∃ t, pySliceTo n l = l.take t := by
  unfold pySliceTo
  split
  · exact ⟨n.toNat, rfl⟩
  · exact ⟨l.length - (-n).toNat, rfl⟩

theorem dedupeGo_sublist : ∀ (js : List Job) (seen : List Str),
    List.Sublist (dedupeGo seen js) js := by
  intro js
  induction js with
  | nil => intro seen; simp [dedupeGo]
  | cons j js ih =>
    intro seen
    simp only [dedupeGo]
    split
    · exact (ih seen).cons j
    · exact (ih _).cons₂ j

theorem dedupeGo_filter (k : Str) : ∀ (js : List Job) (seen : List Str),
    (k ∈ seen →
      (dedupeGo seen js).filter (fun j => decide (canonical_job_key j = k)) = []) ∧
    (k ∉ seen →
      (dedupeGo seen js).filter (fun j => decide (canonical_job_key j = k)) =
        (js.filter (fun j => decide (canonical_job_key j = k))).take 1) := by
  intro js
  induction js with
  | nil => intro seen; constructor <;> intro <;> simp [dedupeGo]
  | cons j js ih =>
    intro seen
    constructor
    · intro hk
      simp only [dedupeGo]
      split
      · exact (ih seen).1 hk
      · rename_i hc
        have hkey : canonical_job_key j ∉ seen := by
          intro hmem
          exact absurd (List.elem_iff.mpr hmem) (by simpa using hc)
        have hne : ¬ canonical_job_key j = k := fun he => hkey (he ▸ hk)
        simp only [List.filter_cons, decide_eq_true_eq, if_neg hne]
        exact (ih (canonical_job_key j :: seen)).1 (List.mem_cons_of_mem _ hk)
    · intro hk
      simp only [dedupeGo]
      split
      · rename_i hc
        have hkey : canonical_job_key j ∈ seen := by
          simpa using List.elem_iff.mp (by simpa using hc)
        have hne : ¬ canonical_job_key j = k := fun he => hk (he ▸ hkey)
        simp only [List.filter_cons, decide_eq_true_eq, if_neg hne]
        exact (ih seen).2 hk
      · by_cases he : canonical_job_key j = k
        · simp only [List.filter_cons, decide_eq_true_eq, if_pos he]
          have h1 : (dedupeGo (canonical_job_key j :: seen) js).filter
              (fun j => decide (canonical_job_key j = k)) = [] :=
            (ih (canonical_job_key j :: seen)).1 (by simp [he])
          simp [h1]
        · simp only [List.filter_cons, decide_eq_true_eq, if_neg he]
          refine (ih (canonical_job_key j :: seen)).2 ?_
          intro hmem
          rcases List.mem_cons.mp hmem with h1 | h2
          · exact he h1.symm
          · exact hk h2

theorem reason_head_ne {l₁ l₂ : Str} {a b : Char} (ha : l₁.head? = some a)
    (hb : l₂.head? = some b) (hne : a ≠ b) : l₁ ≠ l₂ := by
  intro he
  rw [he, hb] at ha
  exact hne (Option.some.inj ha).symm

theorem scoreTail_cases (j : Job) (r : MatchRule) :
    (indVetoCond j r = true ∧ scoreTail j r = (-9999, [indVetoReasonStr]))
  ∨ (indVetoCond j r = false ∧ incVetoCond j r = true ∧
      scoreTail j r = (-9999, [incVetoReasonStr]))
  ∨ (indVetoCond j r = false ∧ incVetoCond j r = false ∧ -12 ≤ (scoreTail j r).1) := by
  by_cases h1 : indVetoCond j r
  · exact Or.inl ⟨h1, by simp [scoreTail, h1]⟩
  · by_cases h2 : incVetoCond j r
    · refine Or.inr (Or.inl ⟨by simpa using h1, h2, ?_⟩)
      simp [scoreTail, h1, h2]
    · refine Or.inr (Or.inr ⟨by simpa using h1, by simpa using h2, ?_⟩)
      have ha : (0 : Int) ≤ indBonusScore j r := by
        unfold indBonusScore; split <;> omega
      have hbb : (0 : Int) ≤ 10 * ((matchedIncludesOf j r).length : Int) :=
        mul_nonneg (by norm_num) (Int.natCast_nonneg _)
      have hcc : (0 : Int) ≤ 8 * ((matchedCompaniesOf j r).length : Int) :=
        mul_nonneg (by norm_num) (Int.natCast_nonneg _)
      have hd : (0 : Int) ≤ cityBonusScore j r := by
        unfold cityBonusScore; split <;> omega
      have hs : (-4 : Int) ≤ salaryScore j r := by
        unfold salaryScore
        split
        · omega
        · split <;> omega
      have hr : (-8 : Int) ≤ remoteScore j r := by
        unfold remoteScore
        split
        · split <;> omega
        · omega
      have he : scoreTail j r =
          (indBonusScore j r + 10 * ((matchedIncludesOf j r).length : Int)
             + 8 * ((matchedCompaniesOf j r).length : Int)
             + cityBonusScore j r + salaryScore j r + remoteScore j r,
           indBonusReasons j r
             ++ (matchedIncludesOf j r).map (fun kw => "關鍵字符合: ".data ++ kw)
             ++ (matchedCompaniesOf j r).map (fun c => "偏好公司: ".data ++ c)
             ++ cityBonusReasons j r ++ salaryReasons j r ++ remoteReasons j r) := by
        simp [scoreTail, h1, h2]
      rw [he]
      dsimp only
      linarith

theorem score_job_eq_tail (j : Job) (r : MatchRule)
    (hf : r.exclude_keywords.find? (kwMatch j r) = none)
    (hg : grpVetoCond j r = false)
    (hc : cityVetoCond j r = false)
    (hcomp : r.exclude_companies.find?
      (fun c => isSub (pyLower c) (pyLower j.company)) = none) :
    score_job j r = scoreTail j r := by
  simp [score_job, hf, hg, hc, hcomp]

theorem find?_eq_none_of_any_eq_false {α : Type} {p : α → Bool} {l : List α}
    (h : l.any p = false) : l.find? p = none := by
  rw [List.find?_eq_none]
  intro x hx hpx
  exact absurd (List.any_eq_true.mpr ⟨x, hx, hpx⟩) (by simp [h])

/-- A rule with every list empty, every flag off and every number zero
(fuzzy threshold 0.82 as in `load_rules`), used as a base for concrete
inputs. -/
def baseRule : MatchRule :=
  { include_keywords := [], require_include_keyword_match := false,
    required_keywords_all := [], required_keyword_groups := [],
    min_required_group_matches := 0, fuzzy_match_enabled := false,
    fuzzy_match_threshold := 82/100, exclude_keywords := [],
    preferred_cities := [], allowed_cities := [], include_companies := [],
    exclude_companies := [], include_industry_keywords := [],
    require_industry_match := false, minimum_salary := 0,
    require_remote := false, minimum_score := 0, top_n := 20 }

/-- A job with every field empty. -/
def baseJob : Job :=
  { title := [], company := [], city := [], salary := 0, url := [],
    description := [], industry := [], tags := [], remote := false }

/-- C1: for every job and rule, if any exclude keyword fuzzy-matches the
job's full text, `score_job` returns immediately with score −9999 and a
reasons list that is exactly one reason naming the (first) matching exclude
keyword — regardless of every other rule field, and no later evaluation
step contributes anything. -/
theorem exclude_keyword_hard_veto (j : Job) (r : MatchRule)
    (h : ∃ kw ∈ r.exclude_keywords, kwMatch j r kw = true) :
    ∃ kw ∈ r.exclude_keywords, kwMatch j r kw = true ∧
      score_job j r = (-9999, [exclKwReason kw]) := by
  have hs : (r.exclude_keywords.find? (kwMatch j r)).isSome := List.find?_isSome.mpr h
  obtain ⟨kw, hkw⟩ := Option.isSome_iff_exists.mp hs
  exact ⟨kw, List.mem_of_find?_eq_some hkw, List.find?_some hkw, by simp [score_job, hkw]⟩

def rC1 : MatchRule :=
  { baseRule with exclude_keywords := ["java".data],
                  include_keywords := ["developer".data],
                  minimum_salary := 1 }

def jC1 : Job := { baseJob with title := "Java Developer".data, salary := 99999 }

theorem exclude_keyword_hard_veto_witness :
    ∃ kw ∈ rC1.exclude_keywords, kwMatch jC1 rC1 kw = true ∧
      score_job jC1 rC1 = (-9999, [exclKwReason kw]) :=
  exclude_keyword_hard_veto jC1 rC1 ⟨"java".data, by decide, by decide⟩

/-- C6: a non-empty keyword that occurs verbatim (case-insensitively) in
the haystack is matched by `keyword_in_text` for every fuzzy flag and every
threshold: the exact-substring tier fires first. -/
theorem substring_always_matches (text kw : Str) (fuzzy : Bool) (threshold : Rat)
    (hne : kw ≠ []) (hsub : pyLower kw <:+: pyLower text) :
    keyword_in_text text kw fuzzy threshold = true := by
  have h1 : isSub (pyLower kw) (pyLower text) = true := (isSub_iff _ _).mpr hsub
  have h2 : kw.isEmpty = false := by simp [List.isEmpty_iff, hne]
  simp [keyword_in_text, h1, h2]

theorem substring_always_matches_witness :
    keyword_in_text "xAbz".data "aB".data false (9/10) = true :=
  substring_always_matches "xAbz".data "aB".data false (9/10) (by decide)
    ⟨"x".data, "z".data, by decide⟩

/-- C7 (amended): for a job with empty url the canonical key is the
lowercased *stripped* title, then `::`, then the lowercased *stripped*
company — the source strips surrounding whitespace before lowercasing. -/
theorem canonical_key_empty_url (j : Job) (h : j.url = []) :
    canonical_job_key j =
      pyLower (pyStrip j.title) ++ "::".data ++ pyLower (pyStrip j.company) := by
  have hu : pyStrip j.url = [] := by rw [h]; rfl
  simp [canonical_job_key, hu]

def jC7w : Job := { baseJob with title := "PM".data, company := "ACME".data }

theorem canonical_key_empty_url_witness :
    canonical_job_key jC7w =
      pyLower (pyStrip jC7w.title) ++ "::".data ++ pyLower (pyStrip jC7w.company) :=
  canonical_key_empty_url jC7w rfl

/-- The key the claim describes for an empty-url job: lowercased title and
company joined by `::` with no other transformation. -/
def claimC7Key (j : Job) : Str := pyLower j.title ++ "::".data ++ pyLower j.company

def jC7x : Job := { baseJob with title := "A ".data, company := "B".data }

/-- C7 counterexample: a job with empty url and a trailing space in its
title gets key `a::b` from the code, not the claim's `a ::b`. -/
theorem canonical_key_empty_url_cx : canonical_job_key jC7x ≠ claimC7Key jC7x := by
  decide

/-- C9: in-run deduplication yields a subsequence of the input (relative
order preserved), and for every key it keeps exactly the first input job
bearing that key. -/
theorem dedupe_keeps_first_in_order (jobs : List Job) :
    List.Sublist (dedupeJobs jobs) jobs ∧
    ∀ k : Str, (dedupeJobs jobs).filter (fun j => decide (canonical_job_key j = k)) =
      (jobs.filter (fun j => decide (canonical_job_key j = k))).take 1 :=
  ⟨dedupeGo_sublist jobs [], fun k => (dedupeGo_filter k jobs []).2 (List.not_mem_nil k)⟩

/-- C10: an empty string in `exclude_companies` is a substring of every
company name, so every job that survives the exclude-keyword, required-group
and allowed-city steps is vetoed with −9999. -/
theorem empty_exclude_company_vetoes_all (j : Job) (r : MatchRule)
    (hmem : ([] : Str) ∈ r.exclude_companies)
    (h1 : r.exclude_keywords.any (kwMatch j r) = false)
    (h2 : grpVetoCond j r = false)
    (h3 : cityVetoCond j r = false) :
    (score_job j r).1 = -9999 := by
  have hf := find?_eq_none_of_any_eq_false h1
  have hsome : (r.exclude_companies.find?
      (fun c => isSub (pyLower c) (pyLower j.company))).isSome :=
    List.find?_isSome.mpr ⟨[], hmem, isSub_nil_left _⟩
  obtain ⟨c, hc⟩ := Option.isSome_iff_exists.mp hsome
  simp [score_job, hf, h2, h3, hc]

def rC10 : MatchRule :=
  { baseRule with exclude_companies := [[]], include_keywords := ["pm".data] }

def jC10 : Job := { baseJob with title := "pm".data, company := "Initech".data }

theorem empty_exclude_company_vetoes_all_witness :
    (score_job jC10 rC10).1 = -9999 :=
  empty_exclude_company_vetoes_all jC10 rC10 (by decide) (by decide) (by decide)
    (by decide)

/-- C2 (amended): with no exclude-keyword match and a non-empty effective
group list, `score_job` takes the required-group veto exactly when the hit
count (which counts only non-empty groups containing a matching term; empty
groups are skipped by the loop) falls below `reqHitsOf r`, which is
`min_required_group_matches` when that value is non-zero and otherwise the
length of the *whole* group list — empty groups included in that
denominator. -/
theorem required_group_count_spec (j : Job) (r : MatchRule)
    (h1 : r.exclude_keywords.any (kwMatch j r) = false)
    (h2 : (effGroups r).isEmpty = false) :
    score_job j r = (-9999, [grpVetoReason j r]) ↔
      (groupHitsOf j r : Int) < reqHitsOf r := by
  have hf : r.exclude_keywords.find? (kwMatch j r) = none :=
    find?_eq_none_of_any_eq_false h1
  by_cases hg : grpVetoCond j r
  · have he : score_job j r = (-9999, [grpVetoReason j r]) := by
      simp [score_job, hf, hg]
    have hlt : (groupHitsOf j r : Int) < reqHitsOf r := by
      have h3 := (Bool.and_eq_true _ _).mp hg
      exact of_decide_eq_true h3.2
    exact iff_of_true he hlt
  · have hnlt : ¬ ((groupHitsOf j r : Int) < reqHitsOf r) := by
      intro hlt
      exact hg (by simp [grpVetoCond, h2, hlt])
    refine iff_of_false ?_ hnlt
    have hgrpHead : (grpVetoReason j r).head? = some '必' := rfl
    by_cases hc : cityVetoCond j r
    · have he : score_job j r = (-9999, [cityVetoReason j]) := by
        simp [score_job, hf, hg, hc]
      rw [he]
      intro hpair
      have hr2 : cityVetoReason j = grpVetoReason j r := by
        simpa using hpair
      exact reason_head_ne
        (show (cityVetoReason j).head? = some '不' from rfl)
        hgrpHead (by decide) hr2
    · cases hcomp : r.exclude_companies.find?
        (fun c => isSub (pyLower c) (pyLower j.company)) with
      | some c =>
        have he : score_job j r = (-9999, [exclCompanyReason c]) := by
          simp [score_job, hf, hg, hc, hcomp]
        rw [he]
        intro hpair
        have hr2 : exclCompanyReason c = grpVetoReason j r := by
          simpa using hpair
        exact reason_head_ne
          (show (exclCompanyReason c).head? = some '排' from rfl)
          hgrpHead (by decide) hr2
      | none =>
        have hg' : grpVetoCond j r = false := by simpa using hg
        have hc' : cityVetoCond j r = false := by simpa using hc
        have hsj : score_job j r = scoreTail j r :=
          score_job_eq_tail j r hf hg' hc' hcomp
        rw [hsj]
        rcases scoreTail_cases j r with ⟨-, he⟩ | ⟨-, -, he⟩ | ⟨-, -, hb⟩
        · rw [he]
          intro hpair
          have hr2 : indVetoReasonStr = grpVetoReason j r := by simpa using hpair
          exact reason_head_ne
            (show indVetoReasonStr.head? = some '非' from rfl)
            hgrpHead (by decide) hr2
        · rw [he]
          intro hpair
          have hr2 : incVetoReasonStr = grpVetoReason j r := by simpa using hpair
          exact reason_head_ne
            (show incVetoReasonStr.head? = some '未' from rfl)
            hgrpHead (by decide) hr2
        · intro hpair
          have h1' : (scoreTail j r).1 = -9999 := by rw [hpair]
          rw [h1'] at hb
          omega

def rC2w : MatchRule := { baseRule with required_keyword_groups := [["x".data]] }

def jC2w : Job := { baseJob with title := "zz".data }

theorem required_group_count_spec_witness :
    score_job jC2w rC2w = (-9999, [grpVetoReason jC2w rC2w]) :=
  (required_group_count_spec jC2w rC2w (by decide) (by decide)).mpr (by decide)

/-- The required group-hit count exactly as the claim words it:
`min_required_group_matches` when positive, otherwise the number of groups
with empty groups skipped entirely (never contributing to the
denominator). -/
def claimC2Required (r : MatchRule) : Int :=
  if 0 < r.min_required_group_matches then r.min_required_group_matches
  else (((effGroups r).filter (fun g => !g.isEmpty)).length : Int)

def rC2x : MatchRule :=
  { baseRule with required_keyword_groups := [["a".data], []] }

def jC2x : Job := { baseJob with title := "a".data }

/-- C2 counterexample: with groups `[["a"], []]` and a job matching `"a"`,
the hit count (1) reaches the claim's required count (1, empty group
skipped), yet the code vetoes with `1/2` because its denominator counts the
empty group. -/
theorem required_group_count_claim_cx :
    groupHitsOf jC2x rC2x = 1 ∧ claimC2Required rC2x = 1 ∧
    ¬ ((groupHitsOf jC2x rC2x : Int) < claimC2Required rC2x) ∧
    score_job jC2x rC2x = (-9999, ["必要群組命中不足: 1/2".data]) := by
  decide

def rC3 : MatchRule :=
  { baseRule with required_keyword_groups := [["python".data], ["senior".data]] }

def jC3 : Job := { baseJob with title := "python developer".data }

/-- C3: at a job matching only the first of two required groups the code
returns −9999 with a reason carrying only the `1/2` hit count; the
slash-joined names of the missing groups (here `senior`) appear nowhere in
the reasons, although the source builds `missing_groups` and the spec says
the reason lists them. -/
theorem group_shortfall_reason_omits_names :
    score_job jC3 rC3 = (-9999, ["必要群組命中不足: 1/2".data]) ∧
    ((score_job jC3 rC3).2.all (fun s => !isSub "senior".data s)) = true := by
  decide

/-- C8: `score_job` returns the sentinel −9999 exactly when one of the six
hard-veto conditions holds; on the additive path the score is at least −12
(the worst case is low salary −4 plus missing remote −8), so a −9999 result
unambiguously indicates a veto. -/
theorem sentinel_only_from_vetoes (j : Job) (r : MatchRule) :
    ((score_job j r).1 = -9999 ↔ hardVeto j r = true)
  ∧ (hardVeto j r = false → -12 ≤ (score_job j r).1 ∧ (score_job j r).1 ≠ -9999) := by
  cases hf : r.exclude_keywords.find? (kwMatch j r) with
  | some kw =>
    have hany : r.exclude_keywords.any (kwMatch j r) = true :=
      List.any_eq_true.mpr ⟨kw, List.mem_of_find?_eq_some hf, List.find?_some hf⟩
    have hv : hardVeto j r = true := by simp [hardVeto, hany]
    have he : (score_job j r).1 = -9999 := by simp [score_job, hf]
    exact ⟨iff_of_true he hv, fun hfalse => absurd hv (by simp [hfalse])⟩
  | none =>
    have hany : r.exclude_keywords.any (kwMatch j r) = false :=
      by
        rw [List.any_eq_false]
        intro x hx
        exact List.find?_eq_none.mp hf x hx
    by_cases hg : grpVetoCond j r
    · have hv : hardVeto j r = true := by simp [hardVeto, hg]
      have he : (score_job j r).1 = -9999 := by simp [score_job, hf, hg]
      exact ⟨iff_of_true he hv, fun hfalse => absurd hv (by simp [hfalse])⟩
    · by_cases hc : cityVetoCond j r
      · have hv : hardVeto j r = true := by simp [hardVeto, hc]
        have he : (score_job j r).1 = -9999 := by simp [score_job, hf, hg, hc]
        exact ⟨iff_of_true he hv, fun hfalse => absurd hv (by simp [hfalse])⟩
      · cases hcomp : r.exclude_companies.find?
          (fun c => isSub (pyLower c) (pyLower j.company)) with
        | some c =>
          have hmc := List.mem_of_find?_eq_some hcomp
          have hpc := List.find?_some hcomp
          have hanyc : r.exclude_companies.any
              (fun c => isSub (pyLower c) (pyLower j.company)) = true :=
            List.any_eq_true.mpr ⟨c, hmc, hpc⟩
          have hv : hardVeto j r = true := by simp [hardVeto, hanyc]
          have he : (score_job j r).1 = -9999 := by simp [score_job, hf, hg, hc, hcomp]
          exact ⟨iff_of_true he hv, fun hfalse => absurd hv (by simp [hfalse])⟩
        | none =>
          have hanyc : r.exclude_companies.any
              (fun c => isSub (pyLower c) (pyLower j.company)) = false := by
            rw [List.any_eq_false]
            intro x hx
            exact List.find?_eq_none.mp hcomp x hx
          have hg' : grpVetoCond j r = false := by simpa using hg
          have hc' : cityVetoCond j r = false := by simpa using hc
          have hsj : score_job j r = scoreTail j r :=
            score_job_eq_tail j r hf hg' hc' hcomp
          rcases scoreTail_cases j r with ⟨hi, he⟩ | ⟨hi, hinc, he⟩ | ⟨hi, hinc, hb⟩
          · have hv : hardVeto j r = true := by simp [hardVeto, hi]
            have he1 : (score_job j r).1 = -9999 := by rw [hsj, he]
            exact ⟨iff_of_true he1 hv, fun hfalse => absurd hv (by simp [hfalse])⟩
          · have hv : hardVeto j r = true := by simp [hardVeto, hinc]
            have he1 : (score_job j r).1 = -9999 := by rw [hsj, he]
            exact ⟨iff_of_true he1 hv, fun hfalse => absurd hv (by simp [hfalse])⟩
          · have hv : hardVeto j r = false := by
              simp [hardVeto, hany, hg', hc', hanyc, hi, hinc]
            have hb' : -12 ≤ (score_job j r).1 := by rw [hsj]; exact hb
            have hne : (score_job j r).1 ≠ -9999 := by
              intro h
              rw [h] at hb'
              omega
            exact ⟨iff_of_false hne (by simp [hv]), fun _ => ⟨hb', hne⟩⟩

def rC8 : MatchRule := { baseRule with require_remote := true }

def jC8 : Job := { baseJob with title := "dev".data, salary := 1 }

theorem sentinel_only_from_vetoes_witness :
    -12 ≤ (score_job jC8 rC8).1 ∧ (score_job jC8 rC8).1 ≠ -9999 :=
  (sentinel_only_from_vetoes jC8 rC8).2 (by decide)

/-- C4 (amended): the ranked output is non-increasing in score, its length
is at most `top_n` whenever `top_n` is nonnegative (for a negative `top_n`
Python slicing `matched[:top_n]` instead drops trailing elements, so the
bound fails), every element's score is at least `minimum_score`, and the
equal-score elements of the output are an order-preserving prefix of the
equal-score elements of the pre-sort (threshold-filtered) sequence: the
stable descending sort never reverses ties. -/
theorem rank_spec (r : MatchRule) (l : List Scored) :
    (rankJobs r l).Pairwise (fun a b => b.score ≤ a.score)
  ∧ (0 ≤ r.top_n → ((rankJobs r l).length : Int) ≤ r.top_n)
  ∧ (∀ x ∈ rankJobs r l, r.minimum_score ≤ x.score)
  ∧ (∀ s : Int, ∃ m,
      (rankJobs r l).filter (fun z => decide (z.score = s)) =
        ((l.filter (fun x => decide (r.minimum_score ≤ x.score))).filter
          (fun z => decide (z.score = s))).take m) := by
  obtain ⟨t, ht⟩ := pySliceTo_eq_take r.top_n
    (sortDesc (l.filter (fun x => decide (r.minimum_score ≤ x.score))))
  have hr : rankJobs r l =
      (sortDesc (l.filter (fun x => decide (r.minimum_score ≤ x.score)))).take t := ht
  refine ⟨?_, ?_, ?_, ?_⟩
  · rw [hr]
    exact (pairwise_sortDesc _).sublist (List.take_sublist t _)
  · intro htop
    have he : rankJobs r l =
        (sortDesc (l.filter (fun x => decide (r.minimum_score ≤ x.score)))).take
          r.top_n.toNat := by
      unfold rankJobs pySliceTo
      rw [if_pos htop]
    rw [he]
    calc (((sortDesc (l.filter (fun x => decide (r.minimum_score ≤ x.score)))).take
            r.top_n.toNat).length : Int)
        ≤ (r.top_n.toNat : Int) := by exact_mod_cast List.length_take_le _ _
      _ = r.top_n := Int.toNat_of_nonneg htop
  · intro x hx
    rw [hr] at hx
    have hx2 : x ∈ sortDesc (l.filter (fun x => decide (r.minimum_score ≤ x.score))) :=
      List.take_subset t _ hx
    have hx3 : x ∈ l.filter (fun x => decide (r.minimum_score ≤ x.score)) :=
      (perm_sortDesc _).mem_iff.mp hx2
    have hpx := (List.mem_filter.mp hx3).2
    exact of_decide_eq_true hpx
  · intro s
    obtain ⟨m, hm⟩ := filter_take (fun z => decide (z.score = s))
      (sortDesc (l.filter (fun x => decide (r.minimum_score ≤ x.score)))) t
    refine ⟨m, ?_⟩
    rw [hr, hm, filter_sortDesc]

def rC4w : MatchRule := { baseRule with top_n := 2, minimum_score := 1 }

def lC4w : List Scored :=
  [Scored.mk baseJob 3 [], Scored.mk baseJob 0 [], Scored.mk baseJob 7 []]

theorem rank_spec_witness :
    ((rankJobs rC4w lC4w).length : Int) ≤ rC4w.top_n :=
  (rank_spec rC4w lC4w).2.1 (by decide)

def rC4x : MatchRule := { baseRule with top_n := -1 }

def lC4x : List Scored := [Scored.mk baseJob 0 []]

/-- C4 counterexample: with `top_n = -1` the output length (0 here, since
Python `matched[:-1]` drops the last element) is not at most `top_n`, so the
length clause of the claim fails for negative `top_n`. -/
theorem rank_spec_cx : ¬ (((rankJobs rC4x lC4x).length : Int) ≤ rC4x.top_n) := by
  decide

def rC5 : MatchRule := baseRule

/-- C5: under `--ignore-seen-dedup` the run persists only the matched keys:
with `k` on disk and no jobs fetched, the persisted key set is empty and has
lost `k`, so the persisted set is *not* the union of the prior on-disk set
with the matched keys, and the store shrinks. -/
theorem seen_store_shrinks_under_ignore_flag :
    ¬ ("k".data ∈ runPersistedKeys ["k".data] true rC5 []) := by
  decide
